import Mathlib

/-!
# AlphaVideoMaker — chunked export pipeline, shallow embedding

This file embeds the chunked video-export pipeline of the repository
(`src/core/renderer.ts`, `src/core/export-controller.ts`,
`src/encoder/ffmpeg-bridge.ts` / the chunked encoder, and the FFmpeg
command generator) as executable Lean definitions, and proves the
specification claims about it.

Conventions of the embedding:
* JavaScript numbers that carry fractional time/progress values are
  modelled as rationals (`ℚ`); frame/chunk counters as `ℕ`.
* `Math.round` is modelled by `jsRound` (round half towards +∞, which is
  JavaScript's behaviour for the non-negative values that occur here).
* The JavaScript `%` operator is modelled by `jsMod` (truncated
  remainder, which agrees with the mathematical modulus on the
  non-negative operands that occur here).
* The FFmpeg worker's virtual file system is modelled as an association
  list of (path, contents) plus a list of directories; frame/part byte
  buffers are modelled as opaque `String` contents.
* External effects that can fail (worker calls, the frame source) are
  driven by explicit oracles so that every execution of the model
  corresponds to one possible real execution.
* The wall-clock-derived ETA field of progress records is outside every
  claim and is omitted from the model (it is the one non-deterministic
  field of the record).
-/

/-- JavaScript `Math.round`: round half towards +∞ (stated over the
computable `Rat.floor`; `jsRound_eq` rephrases it with `⌊⌋`). -/
def jsRound (q : ℚ) : ℤ := (q + 1 / 2).floor

/-- `jsRound` is the floor of `q + 1/2`. -/
theorem jsRound_eq (q : ℚ) : jsRound q = ⌊q + 1 / 2⌋ := by
  rw [jsRound, Rat.floor_def', Rat.floor_def]

/-- Truncation of a rational towards zero (JavaScript number → integer
truncation, used by the `%` operator). -/
def ratTrunc (q : ℚ) : ℤ := if 0 ≤ q then q.floor else -((-q).floor)

/-- `ratTrunc` is floor on non-negative input and ceiling on negative
input. -/
theorem ratTrunc_eq (q : ℚ) : ratTrunc q = if 0 ≤ q then ⌊q⌋ else ⌈q⌉ := by
  rw [ratTrunc]
  split
  · rw [Rat.floor_def', Rat.floor_def]
  · rw [Rat.floor_def', ← Rat.floor_def, Int.floor_neg, neg_neg]

/-- JavaScript `%` on numbers: truncated remainder `a - d * trunc (a / d)`. -/
def jsMod (a d : ℚ) : ℚ := a - d * (ratTrunc (a / d) : ℚ)

/-- `String.prototype.padStart(len, c)`. -/
def padStart (s : String) (len : ℕ) (c : Char) : String :=
  String.mk (List.replicate (len - s.length) c) ++ s

/-- `getFrameFilename` from the command generator: zero-padded sequential
frame name `frame_0000.png`, … -/
def getFrameFilename (frameIndex : ℕ) : String :=
  "frame_" ++ padStart (toString frameIndex) 4 '0' ++ ".png"

/-- `getChunkDirName` from the command generator. -/
def getChunkDirName (chunkIndex : ℕ) : String :=
  "chunk_" ++ padStart (toString chunkIndex) 3 '0'

/-- `getPartFilename` from the command generator. -/
def getPartFilename (chunkIndex : ℕ) : String :=
  "part_" ++ padStart (toString chunkIndex) 3 '0' ++ ".mov"

/-- The ASCII apostrophe used by `generateConcatList` around each path. -/
def quoteChar : String := String.singleton (Char.ofNat 39)

/-- One line of the concat list: `file <path-in-quotes>`. -/
def concatListLine (path : String) : String :=
  "file " ++ quoteChar ++ path ++ quoteChar

/-- `generateConcatList`: newline-joined `file '<path>'` lines, one per
segment part, in the order of the `partPaths` array. -/
def generateConcatList (partPaths : List String) : String :=
  String.intercalate "\n" (partPaths.map concatListLine)

/-- `buildConcatCommand`: the single stream-copy concatenation command. -/
def buildConcatCommand (listFilePath outputPath : String) : List String :=
  ["-f", "concat", "-safe", "0", "-i", listFilePath, "-c", "copy", "-y", outputPath]

/-- Encoder configuration table (`ENCODER_CONFIGS`): FFmpeg encoder id,
pixel format and extra flags per codec. -/
structure EncoderConfig where
  encoder : String
  pixFmt : String
  extraArgs : List String
deriving DecidableEq

/-- The two supported codecs. -/
inductive CodecType
  | qtrle
  | prores4444
deriving DecidableEq

/-- `ENCODER_CONFIGS` from the command generator. -/
def encoderConfigs : CodecType → EncoderConfig
  | .qtrle => ⟨"qtrle", "argb", ["-threads", "1"]⟩
  | .prores4444 => ⟨"prores_ks", "yuva444p10le", ["-profile:v", "4444", "-vendor", "apl0", "-threads", "1"]⟩

/-- `buildChunkEncodeCommand`: the per-chunk encode command. -/
def buildChunkEncodeCommand (chunkDir outputPath : String) (fps : ℕ) (codec : CodecType) : List String :=
  let config := encoderConfigs codec
  ["-framerate", toString fps, "-f", "image2", "-i", chunkDir ++ "/frame_%04d.png",
   "-c:v", config.encoder, "-pix_fmt", config.pixFmt]
  ++ config.extraArgs
  ++ ["-progress", "pipe:1", "-stats_period", "0.5", "-y", outputPath]

/-! ## Clock / sampler (`FrameRenderer.renderFrame`, time computation) -/

/-- The deterministic render-time computation of `renderFrame`
(`renderer.ts` lines 119–121):
`exportTime = frameIndex / fps`, `rawTime = exportTime * playbackRate`,
`time = renderer.duration > 0 ? rawTime % renderer.duration : rawTime`. -/
def renderTime (frameIndex : ℕ) (fps : ℚ) (playbackRate : ℚ) (rendererDuration : ℚ) : ℚ :=
  let exportTime : ℚ := frameIndex / fps
  let rawTime : ℚ := exportTime * playbackRate
  if 0 < rendererDuration then jsMod rawTime rendererDuration else rawTime

/-! ## Frame counting and chunk layout -/

/-- `totalFrames = Math.ceil(duration * fps)` (`renderer.ts` line 79). -/
def totalFramesOf (duration : ℚ) (fps : ℕ) : ℕ := (⌈duration * (fps : ℚ)⌉).toNat

/-- `totalChunks = Math.ceil(totalFrames / chunkFrames)`
(`export-controller.ts` line 88), as a ceiling division on naturals. -/
def totalChunksOf (totalFrames chunkFrames : ℕ) : ℕ :=
  (totalFrames + chunkFrames - 1) / chunkFrames

/-- The chunk processed at loop index `i`
(`export-controller.ts` lines 122–126):
`startFrame = i * chunkFrames`, `frameCount = min(chunkFrames,
totalFrames - startFrame)`. -/
def chunkAt (totalFrames chunkFrames i : ℕ) : ℕ × ℕ :=
  (i * chunkFrames, min chunkFrames (totalFrames - i * chunkFrames))

/-- The full list of chunks processed by the export loop, in loop order. -/
def chunksList (totalFrames chunkFrames : ℕ) : List (ℕ × ℕ) :=
  (List.range (totalChunksOf totalFrames chunkFrames)).map (chunkAt totalFrames chunkFrames)

/-! ## C2: the render-time computation -/

/-- The raw (pre-wrap) render time `exportTime * playbackRate`. -/
def rawRenderTime (frameIndex : ℕ) (fps rate : ℚ) : ℚ := ((frameIndex : ℚ) / fps) * rate

/-- C2. The render time passed to the frame source equals
`(frameIndex / fps) * playbackRate` reduced modulo the frame source's
duration when that duration is positive (i.e. it differs from the raw
time by an integer multiple of the duration and lies in
`[0, duration)`), and equals the raw time unchanged when the duration is
zero.  Determinism in `(frameIndex, config)` holds by construction:
`renderTime` is a pure function of its four arguments. -/
theorem renderTime_wraps_raw_time (frameIndex : ℕ) (fps rate dur : ℚ)
    (hfps : 0 < fps) (hrate : 0 ≤ rate) (_hdur : 0 ≤ dur) :
    (0 < dur →
      (∃ k : ℤ, renderTime frameIndex fps rate dur =
          rawRenderTime frameIndex fps rate - (k : ℚ) * dur)
      ∧ 0 ≤ renderTime frameIndex fps rate dur
      ∧ renderTime frameIndex fps rate dur < dur)
    ∧ (dur = 0 → renderTime frameIndex fps rate dur = rawRenderTime frameIndex fps rate) := by
  have hraw : 0 ≤ rawRenderTime frameIndex fps rate := by
    have h1 : (0 : ℚ) ≤ (frameIndex : ℚ) / fps :=
      div_nonneg (by positivity) (le_of_lt hfps)
    exact mul_nonneg h1 hrate
  constructor
  · intro hpos
    have hne : dur ≠ 0 := ne_of_gt hpos
    have hqnn : 0 ≤ rawRenderTime frameIndex fps rate / dur :=
      div_nonneg hraw (le_of_lt hpos)
    have hqnn' : 0 ≤ ((frameIndex : ℚ) / fps) * rate / dur := by
      simpa [rawRenderTime] using hqnn
    have hmod : renderTime frameIndex fps rate dur =
        rawRenderTime frameIndex fps rate
          - dur * (⌊rawRenderTime frameIndex fps rate / dur⌋ : ℚ) := by
      simp only [renderTime, jsMod, ratTrunc_eq, rawRenderTime]
      rw [if_pos hpos, if_pos hqnn']
    set q : ℚ := rawRenderTime frameIndex fps rate
    refine ⟨⟨⌊q / dur⌋, by rw [hmod]; ring⟩, ?_, ?_⟩
    · rw [hmod]
      have h1 : (⌊q / dur⌋ : ℚ) ≤ q / dur := Int.floor_le _
      have h2 : dur * (⌊q / dur⌋ : ℚ) ≤ dur * (q / dur) :=
        mul_le_mul_of_nonneg_left h1 (le_of_lt hpos)
      have h3 : dur * (q / dur) = q := by field_simp
      linarith
    · rw [hmod]
      have h1 : q / dur < (⌊q / dur⌋ : ℚ) + 1 := Int.lt_floor_add_one _
      have h2 : dur * (q / dur) < dur * ((⌊q / dur⌋ : ℚ) + 1) :=
        mul_lt_mul_of_pos_left h1 hpos
      have h3 : dur * (q / dur) = q := by field_simp
      nlinarith
  · intro h0
    rw [renderTime, if_neg (by rw [h0]; exact lt_irrefl 0)]
    rfl

/-- Witness for `renderTime_wraps_raw_time` at
`frameIndex = 90, fps = 30, playbackRate = 1, duration = 2`
(`90 / 30 * 1 = 3` wraps to `1` inside `[0, 2)`). -/
theorem renderTime_wraps_raw_time_witness :
    (0 : ℚ) < 30 ∧ (0 : ℚ) ≤ 1 ∧ (0 : ℚ) ≤ 2 ∧ renderTime 90 30 1 2 = 1 ∧
    ((0 : ℚ) < 2 →
      (∃ k : ℤ, renderTime 90 30 1 2 = rawRenderTime 90 30 1 - (k : ℚ) * 2)
      ∧ 0 ≤ renderTime 90 30 1 2 ∧ renderTime 90 30 1 2 < 2) := by
  refine ⟨by norm_num, by norm_num, by norm_num, by with_unfolding_all rfl, ?_⟩
  exact (renderTime_wraps_raw_time 90 30 1 2 (by norm_num) (by norm_num) (by norm_num)).1

/-! ## C3: chunk layout covers the frame range exactly -/

/-- The concatenation of the frame-index ranges of a list of chunks. -/
def chunkFrameRanges (l : List (ℕ × ℕ)) : List ℕ :=
  l.flatMap fun p => List.range' p.1 p.2

/-- The first `n` chunks cover exactly `[0, min (n * cf) T)`. -/
theorem chunkFrameRanges_upTo (T cf : ℕ) :
    ∀ n : ℕ, chunkFrameRanges ((List.range n).map (chunkAt T cf)) =
      List.range' 0 (min (n * cf) T) := by
  intro n
  induction n with
  | zero => simp [chunkFrameRanges]
  | succ m ih =>
    rw [List.range_succ, List.map_append, chunkFrameRanges, List.flatMap_append]
    rw [chunkFrameRanges] at ih
    rw [ih]
    simp only [List.map_cons, List.map_nil, List.flatMap_cons, List.flatMap_nil,
      List.append_nil, chunkAt]
    rcases le_or_lt T (m * cf) with hA | hB
    · have h1 : min (m * cf) T = T := min_eq_right hA
      have h2 : T - m * cf = 0 := Nat.sub_eq_zero_of_le hA
      have h3 : min ((m + 1) * cf) T = T := by
        refine min_eq_right (le_trans hA ?_)
        exact Nat.mul_le_mul_right cf (Nat.le_succ m)
      rw [h1, h2, h3]
      simp
    · have h1 : min (m * cf) T = m * cf := min_eq_left (le_of_lt hB)
      rcases le_or_lt cf (T - m * cf) with hC | hC
      · have h2 : min cf (T - m * cf) = cf := min_eq_left hC
        have h3 : min ((m + 1) * cf) T = (m + 1) * cf := by
          refine min_eq_left ?_
          have : m * cf + cf ≤ T := by omega
          calc (m + 1) * cf = m * cf + cf := by ring
            _ ≤ T := this
        rw [h1, h2, h3]
        have happ := List.range'_append_1 0 (m * cf) cf
        rw [Nat.zero_add] at happ
        rw [happ]
        congr 1
        ring
      · have h2 : min cf (T - m * cf) = T - m * cf := min_eq_right (le_of_lt hC)
        have h3 : min ((m + 1) * cf) T = T := by
          refine min_eq_right ?_
          have : T < m * cf + cf := by omega
          calc T ≤ m * cf + cf := le_of_lt this
            _ = (m + 1) * cf := by ring
        rw [h1, h2, h3]
        have happ := List.range'_append_1 0 (m * cf) (T - m * cf)
        rw [Nat.zero_add] at happ
        rw [happ]
        congr 1
        omega

/-- `T ≤ totalChunks * cf`: the chunks reach the end of the frame range. -/
theorem le_totalChunks_mul (T cf : ℕ) (hcf : 0 < cf) :
    T ≤ totalChunksOf T cf * cf := by
  rw [totalChunksOf]
  have h1 := Nat.div_add_mod (T + cf - 1) cf
  have h2 := Nat.mod_lt (T + cf - 1) hcf
  rw [Nat.mul_comm] at h1
  omega

/-- Any non-final chunk index starts strictly inside the frame range. -/
theorem mul_lt_of_lt_totalChunks (T cf n : ℕ) (hcf : 0 < cf)
    (h : n + 1 ≤ totalChunksOf T cf) : n * cf < T := by
  rw [totalChunksOf] at h
  have h2 : (n + 1) * cf ≤ ((T + cf - 1) / cf) * cf := Nat.mul_le_mul_right cf h
  have h3 : ((T + cf - 1) / cf) * cf ≤ T + cf - 1 := by
    rw [Nat.mul_comm]; exact Nat.mul_div_le _ _
  have h4 : (n + 1) * cf = n * cf + cf := by ring
  omega

/-- `totalChunksOf` is the exact ceiling: `T / cf`, plus one when `cf`
does not divide `T`. -/
theorem totalChunksOf_eq (T cf : ℕ) (hcf : 0 < cf) :
    totalChunksOf T cf = T / cf + (if T % cf = 0 then 0 else 1) := by
  rw [totalChunksOf]
  have h1 := Nat.div_add_mod T cf
  have h2 := Nat.mod_lt T hcf
  rcases Nat.eq_zero_or_pos (T % cf) with hr | hr
  · rw [if_pos hr]
    have hT : T + cf - 1 = cf * (T / cf) + (cf - 1) := by omega
    rw [hT, Nat.mul_add_div hcf]
    rw [Nat.div_eq_of_lt (show cf - 1 < cf by omega)]
  · rw [if_neg (Nat.pos_iff_ne_zero.mp hr)]
    have hT : T + cf - 1 = cf * (T / cf + 1) + (T % cf - 1) := by
      have : cf * (T / cf + 1) = cf * (T / cf) + cf := by ring
      omega
    rw [hT, Nat.mul_add_div hcf]
    rw [Nat.div_eq_of_lt (show T % cf - 1 < cf by omega)]

/-- C3. `totalFrames = ceil(duration * fps)`, and the chunks processed
by the export loop cover `[0, totalFrames)` exactly once each in
ascending order (their frame-index ranges concatenate to
`List.range totalFrames`), with the last chunk sized
`totalFrames mod chunkFrames` when not evenly divisible and a full
`chunkFrames` otherwise. -/
theorem chunks_partition_frames (duration : ℚ) (fps cf : ℕ)
    (hd : 0 < duration) (hfps : 0 < fps) (hcf : 0 < cf) :
    (totalFramesOf duration fps : ℤ) = ⌈duration * (fps : ℚ)⌉
    ∧ chunkFrameRanges (chunksList (totalFramesOf duration fps) cf)
        = List.range (totalFramesOf duration fps)
    ∧ ((chunksList (totalFramesOf duration fps) cf).getLast?).map Prod.snd
        = some (if totalFramesOf duration fps % cf = 0 then cf
                else totalFramesOf duration fps % cf) := by
  have hfq : (0 : ℚ) < (fps : ℚ) := by exact_mod_cast hfps
  have hceil : 1 ≤ ⌈duration * (fps : ℚ)⌉ := by
    rw [Int.le_ceil_iff]
    push_cast
    nlinarith
  have hcast : (totalFramesOf duration fps : ℤ) = ⌈duration * (fps : ℚ)⌉ := by
    rw [totalFramesOf, Int.toNat_of_nonneg (by omega)]
  set T := totalFramesOf duration fps with hTdef
  have hT : 0 < T := by
    have : (0 : ℤ) < (T : ℤ) := by rw [hcast]; omega
    exact_mod_cast this
  refine ⟨hcast, ?_, ?_⟩
  · rw [chunksList, chunkFrameRanges_upTo T cf (totalChunksOf T cf),
      min_eq_right (le_totalChunks_mul T cf hcf), List.range_eq_range']
  · have hNpos : 0 < totalChunksOf T cf := by
      rw [totalChunksOf]
      exact Nat.div_pos (by omega) hcf
    have hN : totalChunksOf T cf = (totalChunksOf T cf - 1) + 1 :=
      (Nat.succ_pred_eq_of_pos hNpos).symm
    set m := totalChunksOf T cf - 1 with hmdef
    have hlast : (chunksList T cf).getLast? = some (chunkAt T cf m) := by
      rw [chunksList, hN, List.range_succ, List.map_append, List.map_cons,
        List.map_nil, List.getLast?_concat]
    rw [hlast, Option.map_some', chunkAt]
    have hub : T ≤ (m + 1) * cf := by
      have := le_totalChunks_mul T cf hcf
      rw [hN] at this
      exact this
    have hlb : m * cf < T :=
      mul_lt_of_lt_totalChunks T cf m hcf (le_of_eq hN.symm)
    have he1 : (m + 1) * cf = m * cf + cf := by ring
    have hsz : min cf (T - m * cf) = T - m * cf := min_eq_right (by omega)
    have hdm := Nat.div_add_mod T cf
    have hNe := totalChunksOf_eq T cf hcf
    rcases Nat.eq_zero_or_pos (T % cf) with hr | hr
    · rw [if_pos hr]
      rw [hNe, hr, if_pos rfl, Nat.add_zero] at hN
      have he2 : cf * (T / cf) = cf * (m + 1) := by rw [← hN]
      have he3 : cf * (m + 1) = m * cf + cf := by ring
      have : T - m * cf = cf := by omega
      rw [hsz, this]
    · rw [if_neg (Nat.pos_iff_ne_zero.mp hr)]
      rw [hNe, if_neg (Nat.pos_iff_ne_zero.mp hr)] at hN
      have hq : T / cf = m := by omega
      rw [hq] at hdm
      have he2 : cf * m = m * cf := by ring
      have : T - m * cf = T % cf := by omega
      rw [hsz, this]

/-- Witness for `chunks_partition_frames` at the spec's concrete
scenario `fps = 30, duration = 2 s, chunkFrames = 30`
(`totalFrames = 60`, two full chunks `[0,30)` and `[30,60)`). -/
theorem chunks_partition_frames_witness :
    (0 : ℚ) < 2 ∧ 0 < 30 ∧ totalFramesOf 2 30 = 60
    ∧ chunksList (totalFramesOf 2 30) 30 = [(0, 30), (30, 30)]
    ∧ (chunkFrameRanges (chunksList (totalFramesOf 2 30) 30)
        = List.range (totalFramesOf 2 30)
      ∧ ((chunksList (totalFramesOf 2 30) 30).getLast?).map Prod.snd
        = some (if totalFramesOf 2 30 % 30 = 0 then 30
                else totalFramesOf 2 30 % 30)) := by
  refine ⟨by norm_num, by norm_num, by with_unfolding_all rfl,
    by with_unfolding_all rfl, ?_⟩
  exact (chunks_partition_frames 2 30 30 (by norm_num) (by norm_num)
    (by norm_num)).2

/-! ## The FFmpeg worker's virtual file system

The bridge exposes `writeFile / readFile / deleteFile / createDir /
deleteDir` against the worker's in-memory FS.  File contents (PNG frame
bytes, encoded part bytes, the concat list) are modelled as opaque
`String`s.  `deleteFile` / `deleteDir` of a missing entry reject in the
worker; every call site in the chunked encoder wraps them in
`try {} catch {}`, so the swallowed-error call is modelled as the
plain removal (a no-op when the entry is absent). -/

structure WorkerFS where
  files : List (String × String)
  dirs : List String
deriving DecidableEq

namespace WorkerFS

/-- Does a file exist at `p`? -/
def hasFile (fs : WorkerFS) (p : String) : Bool :=
  fs.files.any fun e => e.1 == p

/-- Does a directory exist at `d`? -/
def hasDir (fs : WorkerFS) (d : String) : Bool :=
  fs.dirs.any fun x => x == d

/-- `readFile`: the contents at `p`, if present. -/
def readFile (fs : WorkerFS) (p : String) : Option String :=
  (fs.files.find? fun e => e.1 == p).map Prod.snd

/-- `writeFile`: create or overwrite the file at `p`. -/
def writeFile (fs : WorkerFS) (p d : String) : WorkerFS :=
  { fs with files := (p, d) :: fs.files.filter fun e => !(e.1 == p) }

/-- `deleteFile` with the caller's `try {} catch {}`: remove the file at
`p` when present, otherwise leave the FS unchanged. -/
def deleteFile (fs : WorkerFS) (p : String) : WorkerFS :=
  { fs with files := fs.files.filter fun e => !(e.1 == p) }

/-- `createDir`. -/
def createDir (fs : WorkerFS) (d : String) : WorkerFS :=
  { fs with dirs := d :: fs.dirs }

/-- `deleteDir` with the caller's `try {} catch {}`. -/
def deleteDir (fs : WorkerFS) (d : String) : WorkerFS :=
  { fs with dirs := fs.dirs.filter fun x => !(x == d) }

/-- Entries whose key is filtered out never match that key again. -/
theorem any_filter_ne_self (l : List (String × String)) (p : String) :
    ((l.filter fun e => !(e.1 == p)).any fun e => e.1 == p) = false := by
  induction l with
  | nil => rfl
  | cons e rest ih =>
    rw [List.filter_cons]
    cases he : e.1 == p
    · simp [he, ih]
    · simp [he, ih]

/-- Filtering out one key does not affect matches for a different key. -/
theorem any_filter_ne_other (l : List (String × String)) (p q : String)
    (h : (p == q) = false) :
    ((l.filter fun e => !(e.1 == p)).any fun e => e.1 == q)
      = l.any fun e => e.1 == q := by
  induction l with
  | nil => rfl
  | cons e rest ih =>
    rw [List.filter_cons]
    cases he : e.1 == p
    · simp [he, ih]
    · have hep : e.1 = p := (beq_iff_eq (a := e.1) (b := p)).mp he
      subst hep
      simp [h, he, ih]

theorem hasFile_writeFile (fs : WorkerFS) (p q d : String) :
    (fs.writeFile p d).hasFile q = (p == q || fs.hasFile q) := by
  rw [writeFile, hasFile, hasFile]
  simp only [List.any_cons]
  cases hpq : p == q
  · rw [any_filter_ne_other fs.files p q hpq]
  · have hpq' : p = q := (beq_iff_eq (a := p) (b := q)).mp hpq
    subst hpq'
    simp

theorem hasFile_deleteFile (fs : WorkerFS) (p q : String) :
    (fs.deleteFile p).hasFile q = (!(p == q) && fs.hasFile q) := by
  rw [deleteFile, hasFile, hasFile]
  cases hpq : p == q
  · rw [any_filter_ne_other fs.files p q hpq]
    simp
  · have hpq' : p = q := (beq_iff_eq (a := p) (b := q)).mp hpq
    subst hpq'
    simp [any_filter_ne_self]

theorem hasDir_deleteDir_self (fs : WorkerFS) (d : String) :
    (fs.deleteDir d).hasDir d = false := by
  rw [deleteDir, hasDir]
  induction fs.dirs with
  | nil => rfl
  | cons x rest ih =>
    rw [List.filter_cons]
    cases hx : x == d
    · simp [hx, ih]
    · simp [hx, ih]

theorem dirs_writeFile (fs : WorkerFS) (p d : String) :
    (fs.writeFile p d).dirs = fs.dirs := rfl

theorem dirs_deleteFile (fs : WorkerFS) (p : String) :
    (fs.deleteFile p).dirs = fs.dirs := rfl

theorem files_deleteDir (fs : WorkerFS) (d : String) :
    (fs.deleteDir d).files = fs.files := rfl

theorem files_createDir (fs : WorkerFS) (d : String) :
    (fs.createDir d).files = fs.files := rfl

/-- Reading back a freshly written file yields exactly its contents. -/
theorem readFile_writeFile_self (fs : WorkerFS) (p d : String) :
    (fs.writeFile p d).readFile p = some d := by
  rw [writeFile, readFile]
  simp [List.find?_cons_of_pos]

end WorkerFS

/-! ## The chunked encoder (`ChunkedEncoder`) -/

/-- The frame file path written by `encodeChunk`:
`${chunkDir}/${getFrameFilename(i)}`. -/
def framePath (chunkDir : String) (i : ℕ) : String :=
  chunkDir ++ "/" ++ getFrameFilename i

/-- The mutable fields of `ChunkedEncoder` relevant to the claims: the
ordered list of recorded segment part paths and the cancellation flag. -/
structure EncoderState where
  partPaths : List String
  cancelled : Bool
deriving DecidableEq

/-- Oracle for one `encodeChunk` call: whether the cancellation flag is
observed set at the check before the `i`-th frame write, whether each
worker call succeeds, and the bytes the encode command produces.  Every
assignment corresponds to one possible real execution. -/
structure EncodeOracle where
  cancelledBeforeWrite : ℕ → Bool
  writeOk : ℕ → Bool
  createDirOk : Bool
  execOk : Bool
  encodedData : String

/-- Result of one `encodeChunk` call: the resolved/rejected promise, the
encoder state after the call, and the worker FS after the call. -/
structure EncodeResult where
  result : Except String String
  state : EncoderState
  fs : WorkerFS

/-- The frame-writing loop of `encodeChunk` (step 2): check the
cancellation flag, then write `frames[i]` to
`${chunkDir}/${getFrameFilename(i)}`; stop with the error when the flag
is set or a write rejects.  (The source's `if (!frame)` hole check
cannot fire on the dense arrays produced by `renderChunk` and has no
counterpart on total lists.) -/
def writeFrames (o : EncodeOracle) (chunkDir : String) :
    ℕ → List String → WorkerFS → WorkerFS × Option String
  | _, [], fs => (fs, none)
  | i, frame :: rest, fs =>
    if o.cancelledBeforeWrite i then (fs, some "编码已取消")
    else if o.writeOk i then
      writeFrames o chunkDir (i + 1) rest (fs.writeFile (framePath chunkDir i) frame)
    else (fs, some "写入帧文件失败")

/-- The frame-deletion loop (step 4 of `encodeChunk`, also the loop of
`cleanupChunk`): delete `frame_0000.png … frame_(n-1).png` under the
chunk dir, each deletion's error swallowed. -/
def cleanupFrames (chunkDir : String) (frameCount : ℕ) (fs : WorkerFS) : WorkerFS :=
  (List.range frameCount).foldl (fun acc i => acc.deleteFile (framePath chunkDir i)) fs

/-- `ChunkedEncoder.cleanupChunk`: delete every frame file, then the
chunk directory, all errors swallowed. -/
def cleanupChunk (chunkDir : String) (frameCount : ℕ) (fs : WorkerFS) : WorkerFS :=
  (cleanupFrames chunkDir frameCount fs).deleteDir chunkDir

/-- `ChunkedEncoder.encodeChunk`: cancellation guard, create the chunk
dir, write the frames, run the encode command, then delete the frame
files and the chunk dir; on any failure inside the `try`, run
`cleanupChunk` and re-throw; on success record the part path. -/
def encodeChunk (o : EncodeOracle) (st : EncoderState) (chunkIndex : ℕ)
    (frames : List String) (fs : WorkerFS) : EncodeResult :=
  if st.cancelled then ⟨.error "编码已取消", st, fs⟩
  else
    let chunkDir := getChunkDirName chunkIndex
    let partPath := getPartFilename chunkIndex
    if !o.createDirOk then
      ⟨.error "创建目录失败", st, cleanupChunk chunkDir frames.length fs⟩
    else
      let fs1 := fs.createDir chunkDir
      match writeFrames o chunkDir 0 frames fs1 with
      | (fs2, some e) => ⟨.error e, st, cleanupChunk chunkDir frames.length fs2⟩
      | (fs2, none) =>
        if !o.execOk then
          ⟨.error "编码命令失败", st, cleanupChunk chunkDir frames.length fs2⟩
        else
          let fs3 := fs2.writeFile partPath o.encodedData
          let fs4 := cleanupChunk chunkDir frames.length fs3
          ⟨.ok partPath, { st with partPaths := st.partPaths ++ [partPath] }, fs4⟩

/-- Peeling the last deletion off the frame-deletion loop. -/
theorem cleanupFrames_succ (chunkDir : String) (n : ℕ) (fs : WorkerFS) :
    cleanupFrames chunkDir (n + 1) fs =
      (cleanupFrames chunkDir n fs).deleteFile (framePath chunkDir n) := by
  rw [cleanupFrames, cleanupFrames, List.range_succ, List.foldl_append]
  rfl

/-- A file absent before the frame-deletion loop stays absent. -/
theorem hasFile_cleanupFrames_of_not (chunkDir q : String) (n : ℕ) (fs : WorkerFS)
    (h : fs.hasFile q = false) :
    (cleanupFrames chunkDir n fs).hasFile q = false := by
  induction n with
  | zero => exact h
  | succ m ih =>
    rw [cleanupFrames_succ, WorkerFS.hasFile_deleteFile, ih, Bool.and_false]

/-- After the frame-deletion loop, none of the `n` frame files of the
chunk exist, regardless of the FS it ran on. -/
theorem hasFile_cleanupFrames (chunkDir : String) (n : ℕ) (fs : WorkerFS) :
    ∀ i < n, (cleanupFrames chunkDir n fs).hasFile (framePath chunkDir i) = false := by
  induction n with
  | zero => intro i hi; omega
  | succ m ih =>
    intro i hi
    rw [cleanupFrames_succ, WorkerFS.hasFile_deleteFile]
    rcases Nat.lt_or_ge i m with h | h
    · rw [ih i h, Bool.and_false]
    · have : i = m := by omega
      subst this
      simp

/-- After `cleanupChunk`, none of the chunk's frame files and not the
chunk dir exist. -/
theorem cleanupChunk_clean (chunkDir : String) (n : ℕ) (fs : WorkerFS) :
    (∀ i < n, (cleanupChunk chunkDir n fs).hasFile (framePath chunkDir i) = false)
    ∧ (cleanupChunk chunkDir n fs).hasDir chunkDir = false := by
  constructor
  · intro i hi
    rw [cleanupChunk]
    have h := hasFile_cleanupFrames chunkDir n fs i hi
    rw [WorkerFS.hasFile] at h ⊢
    rw [WorkerFS.files_deleteDir]
    exact h
  · exact WorkerFS.hasDir_deleteDir_self _ _

/-- C4. Whatever the outcome of `encodeChunk` — success, a worker
failure at any step, or cancellation observed during the call — the FS
it leaves behind contains none of the chunk's frame files and not the
chunk's scratch directory (provided the call starts from an FS with no
residue of this chunk, which the pipeline guarantees): at most one
chunk's frame bytes are ever resident in the worker's storage. -/
theorem encodeChunk_no_residue (o : EncodeOracle) (st : EncoderState) (ci : ℕ)
    (frames : List String) (fs : WorkerFS)
    (hfiles : ∀ i, fs.hasFile (framePath (getChunkDirName ci) i) = false)
    (hdir : fs.hasDir (getChunkDirName ci) = false) :
    (∀ i < frames.length,
      (encodeChunk o st ci frames fs).fs.hasFile (framePath (getChunkDirName ci) i) = false)
    ∧ (encodeChunk o st ci frames fs).fs.hasDir (getChunkDirName ci) = false := by
  rw [encodeChunk]
  rcases hc : st.cancelled
  · simp only [Bool.false_eq_true, if_false]
    rcases hcd : o.createDirOk
    · simp only [Bool.not_false, if_true]
      exact cleanupChunk_clean _ _ _
    · simp only [Bool.not_true, Bool.false_eq_true, if_false]
      rcases hw : writeFrames o (getChunkDirName ci) 0 frames (fs.createDir (getChunkDirName ci))
        with ⟨fs2, err⟩
      rcases err with _ | e
      · rcases hex : o.execOk
        · simp only [Bool.not_false, if_true]
          exact cleanupChunk_clean _ _ _
        · simp only [Bool.not_true, Bool.false_eq_true, if_false]
          exact cleanupChunk_clean _ _ _
      · exact cleanupChunk_clean _ _ _
  · simp only [if_true]
    exact ⟨fun i _ => hfiles i, hdir⟩

/-- A sample all-succeeding encode oracle. -/
def sampleEncodeOracle : EncodeOracle :=
  ⟨fun _ => false, fun _ => true, true, true, "encoded-bytes"⟩

/-- Witness for `encodeChunk_no_residue`: a clean FS, two frames,
chunk 0, all worker calls succeeding. -/
theorem encodeChunk_no_residue_witness :
    (∀ i, (WorkerFS.mk [] []).hasFile (framePath (getChunkDirName 0) i) = false)
    ∧ (WorkerFS.mk [] []).hasDir (getChunkDirName 0) = false
    ∧ ((∀ i < (["f0", "f1"] : List String).length,
        (encodeChunk sampleEncodeOracle ⟨[], false⟩ 0 ["f0", "f1"]
          (WorkerFS.mk [] [])).fs.hasFile (framePath (getChunkDirName 0) i) = false)
      ∧ (encodeChunk sampleEncodeOracle ⟨[], false⟩ 0 ["f0", "f1"]
          (WorkerFS.mk [] [])).fs.hasDir (getChunkDirName 0) = false) :=
  ⟨fun _ => rfl, rfl,
    encodeChunk_no_residue sampleEncodeOracle ⟨[], false⟩ 0 ["f0", "f1"]
      (WorkerFS.mk [] []) (fun _ => rfl) rfl⟩

/-! ## `ChunkedEncoder.cleanup` and `mergeChunks` -/

/-- `ChunkedEncoder.cleanup`: delete every recorded part file, then the
concat list and the merged output (each deletion's error swallowed),
then empty the recorded part list. -/
def encoderCleanup (st : EncoderState) (fs : WorkerFS) : EncoderState × WorkerFS :=
  let fs1 := st.partPaths.foldl (fun acc p => acc.deleteFile p) fs
  let fs2 := (fs1.deleteFile "concat_list.txt").deleteFile "output.mov"
  ({ st with partPaths := [] }, fs2)

/-- Oracle for one `mergeChunks` call: whether the concat command
succeeds and the bytes it produces. -/
structure MergeOracle where
  execOk : Bool
  concatData : String

/-- Result of one `mergeChunks` call: the resolved/rejected promise, the
encoder state and worker FS after the call, the FFmpeg commands issued
during the call, and the files written during the call. -/
structure MergeResult where
  result : Except String String
  state : EncoderState
  fs : WorkerFS
  execCmds : List (List String)
  writes : List (String × String)

/-- `ChunkedEncoder.mergeChunks`: cancellation and empty guards; with a
single recorded part, read its bytes back directly and clean up; with
two or more, write the concat list, issue one stream-copy concat
command, read back the output, and clean up on both success and failure.
(The source's `if (!partPath)` guard in the single-part branch is a
TS-`undefined` check that cannot fire once the list is known to have
exactly one element.) -/
def mergeChunks (o : MergeOracle) (st : EncoderState) (fs : WorkerFS) : MergeResult :=
  if st.cancelled then ⟨.error "编码已取消", st, fs, [], []⟩
  else
    match st.partPaths with
    | [] => ⟨.error "没有分段可合并", st, fs, [], []⟩
    | [partPath] =>
      match fs.readFile partPath with
      | some data =>
        let r := encoderCleanup st fs
        ⟨.ok data, r.1, r.2, [], []⟩
      | none => ⟨.error "读取分段失败", st, fs, [], []⟩
    | _ :: _ :: _ =>
      let listPath := "concat_list.txt"
      let outputPath := "output.mov"
      let listContent := generateConcatList st.partPaths
      let fs1 := fs.writeFile listPath listContent
      let cmd := buildConcatCommand listPath outputPath
      if o.execOk then
        let fs2 := fs1.writeFile outputPath o.concatData
        match fs2.readFile outputPath with
        | some data =>
          let r := encoderCleanup st fs2
          ⟨.ok data, r.1, r.2, [cmd], [(listPath, listContent), (outputPath, o.concatData)]⟩
        | none =>
          let r := encoderCleanup st fs2
          ⟨.error "读取输出失败", r.1, r.2, [cmd], [(listPath, listContent), (outputPath, o.concatData)]⟩
      else
        let r := encoderCleanup st fs1
        ⟨.error "合并命令失败", r.1, r.2, [cmd], [(listPath, listContent)]⟩

/-- C5. With exactly one recorded segment, `mergeChunks` issues no
FFmpeg command at all and resolves with exactly the bytes read back from
that sole segment file. -/
theorem mergeChunks_single_segment (o : MergeOracle) (st : EncoderState)
    (fs : WorkerFS) (p b : String) (hnc : st.cancelled = false)
    (hp : st.partPaths = [p]) (hread : fs.readFile p = some b) :
    (mergeChunks o st fs).result = .ok b
    ∧ (mergeChunks o st fs).execCmds = [] := by
  rw [mergeChunks, hnc, hp]
  simp only [Bool.false_eq_true, if_false, hread]
  exact ⟨trivial, trivial⟩

/-- Witness for `mergeChunks_single_segment`: one part file holding
`"solo-bytes"`; they are returned unchanged with no command issued. -/
theorem mergeChunks_single_segment_witness :
    (EncoderState.mk [getPartFilename 0] false).cancelled = false
    ∧ (WorkerFS.mk [(getPartFilename 0, "solo-bytes")] []).readFile (getPartFilename 0)
        = some "solo-bytes"
    ∧ ((mergeChunks ⟨true, "unused"⟩ ⟨[getPartFilename 0], false⟩
          ⟨[(getPartFilename 0, "solo-bytes")], []⟩).result = .ok "solo-bytes"
      ∧ (mergeChunks ⟨true, "unused"⟩ ⟨[getPartFilename 0], false⟩
          ⟨[(getPartFilename 0, "solo-bytes")], []⟩).execCmds = []) :=
  ⟨rfl, by with_unfolding_all rfl,
    mergeChunks_single_segment ⟨true, "unused"⟩ ⟨[getPartFilename 0], false⟩
      ⟨[(getPartFilename 0, "solo-bytes")], []⟩ (getPartFilename 0) "solo-bytes"
      rfl rfl (by with_unfolding_all rfl)⟩

/-- C10. `mergeChunks` called with no successfully encoded chunk
recorded — an empty part list — or after cancellation, always rejects
with an error and never resolves with bytes. -/
theorem mergeChunks_empty_or_cancelled_errors (o : MergeOracle)
    (st : EncoderState) (fs : WorkerFS)
    (h : st.cancelled = true ∨ st.partPaths = []) :
    ∃ e, (mergeChunks o st fs).result = .error e := by
  rcases hc : st.cancelled
  · rcases h with h | h
    · rw [hc] at h; exact absurd h (by simp)
    · exact ⟨"没有分段可合并", by rw [mergeChunks, hc, h]; rfl⟩
  · exact ⟨"编码已取消", by rw [mergeChunks, hc]; rfl⟩

/-- Witness for `mergeChunks_empty_or_cancelled_errors`: an empty part
list rejects. -/
theorem mergeChunks_empty_or_cancelled_errors_witness :
    ((EncoderState.mk [] false).cancelled = true ∨ (EncoderState.mk [] false).partPaths = [])
    ∧ ∃ e, (mergeChunks ⟨true, "d"⟩ ⟨[], false⟩ ⟨[], []⟩).result = .error e :=
  ⟨Or.inr rfl,
    mergeChunks_empty_or_cancelled_errors ⟨true, "d"⟩ ⟨[], false⟩ ⟨[], []⟩ (Or.inr rfl)⟩

/-! ## C9: idempotent cleanup -/

theorem deleteFile_idem (fs : WorkerFS) (p : String) :
    (fs.deleteFile p).deleteFile p = fs.deleteFile p := by
  simp only [WorkerFS.deleteFile]
  congr 1
  rw [List.filter_filter]
  congr 1
  funext e
  rw [Bool.and_self]

theorem deleteFile_comm (fs : WorkerFS) (p q : String) :
    (fs.deleteFile p).deleteFile q = (fs.deleteFile q).deleteFile p := by
  simp only [WorkerFS.deleteFile]
  congr 1
  rw [List.filter_filter, List.filter_filter]
  congr 1
  funext e
  rw [Bool.and_comm]

/-- The resources the controller's `cleanup()` releases: the chunked
encoder, the FFmpeg bridge worker, and the frame renderer; all three
fields are nulled after the call. -/
structure ControllerResources where
  encoder : Option EncoderState
  bridgeAlive : Bool
  rendererAlive : Bool
deriving DecidableEq

/-- `ExportController.cleanup`: best-effort encoder cleanup (errors
swallowed), terminate the bridge, dispose the renderer, null the
fields. -/
def controllerCleanup : ControllerResources × WorkerFS → ControllerResources × WorkerFS
  | (c, fs) =>
    match c.encoder with
    | some st => (⟨none, false, false⟩, (encoderCleanup st fs).2)
    | none => (⟨none, false, false⟩, fs)

/-- C9. Cleanup is idempotent: `ChunkedEncoder.cleanup` empties the
recorded segment list, and running it a second time on its own output
changes nothing (so no segment file is freed twice and nothing throws);
`ExportController.cleanup` is likewise idempotent because the first call
nulls the encoder/bridge/renderer fields. -/
theorem cleanup_idempotent (st : EncoderState) (fs : WorkerFS)
    (c : ControllerResources × WorkerFS) :
    (encoderCleanup st fs).1.partPaths = []
    ∧ encoderCleanup (encoderCleanup st fs).1 (encoderCleanup st fs).2
        = encoderCleanup st fs
    ∧ controllerCleanup (controllerCleanup c) = controllerCleanup c := by
  refine ⟨rfl, ?_, ?_⟩
  · rw [encoderCleanup, encoderCleanup]
    simp only [List.foldl_nil]
    congr 1
    set fs1 := st.partPaths.foldl (fun acc p => acc.deleteFile p) fs
    have h1 : ((fs1.deleteFile "concat_list.txt").deleteFile "output.mov").deleteFile
        "concat_list.txt" = (fs1.deleteFile "concat_list.txt").deleteFile "output.mov" := by
      rw [deleteFile_comm _ "output.mov" "concat_list.txt", deleteFile_idem]
    rw [h1, deleteFile_idem]
  · rcases c with ⟨c, fs'⟩
    rcases c with ⟨enc, b, r⟩
    rcases enc with _ | st'
    · rfl
    · rfl

/-! ## C7: `FrameRenderer.renderChunk` and cooperative cancellation

`renderChunk` loops `i` from `startFrame` to
`min(startFrame + frameCount, totalFrames)` and, for each frame, reads
the cancellation flag at the top of the loop and again on entry to
`renderFrame`; either read observing the flag set throws `渲染已取消`
immediately.  The flag reads of one chunk render are numbered
`0, 1, 2, …` in program order: iteration `j` performs reads `2j` (loop
check) and `2j + 1` (`renderFrame` entry check).  `cancel()` only ever
sets the flag, so the observed values are monotone in program order. -/

structure RenderOracle where
  cancelledAt : ℕ → Bool
  renderOk : ℕ → Bool
  frameData : ℕ → String

/-- The body of `renderChunk`'s loop, `count` iterations remaining,
`j` the iteration ordinal within the chunk.  Returns the indices whose
`renderAt` was actually started and the resolved/rejected result. -/
def renderChunkLoop (o : RenderOracle) (startFrame : ℕ) :
    ℕ → ℕ → List String → List ℕ → List ℕ × Except String (List String)
  | 0, _, acc, accIdx => (accIdx, .ok acc)
  | count + 1, j, acc, accIdx =>
    if o.cancelledAt (2 * j) then (accIdx, .error "渲染已取消")
    else if o.cancelledAt (2 * j + 1) then (accIdx, .error "渲染已取消")
    else if o.renderOk (startFrame + j) then
      renderChunkLoop o startFrame count (j + 1)
        (acc ++ [o.frameData (startFrame + j)]) (accIdx ++ [startFrame + j])
    else (accIdx, .error "renderAt 超时（可能是自定义 HTML 截图卡住）")

/-- `FrameRenderer.renderChunk(startFrame, frameCount)`:
`endFrame = min(startFrame + frameCount, totalFrames)`. -/
def renderChunkRun (o : RenderOracle) (startFrame frameCount totalFrames : ℕ) :
    List ℕ × Except String (List String) :=
  renderChunkLoop o startFrame (min (startFrame + frameCount) totalFrames - startFrame) 0 [] []

/-- Every index whose render is started by the loop either was already
in the accumulator or lies in the remaining window and had the flag
observed clear at both of its checks. -/
theorem renderChunkLoop_started_sound (o : RenderOracle) (s : ℕ) :
    ∀ count j acc accIdx i,
      i ∈ (renderChunkLoop o s count j acc accIdx).1 →
      i ∈ accIdx ∨
        (s + j ≤ i ∧ i < s + j + count
          ∧ o.cancelledAt (2 * (i - s)) = false
          ∧ o.cancelledAt (2 * (i - s) + 1) = false) := by
  intro count
  induction count with
  | zero => intro j acc accIdx i hi; exact Or.inl hi
  | succ m ih =>
    intro j acc accIdx i hi
    rw [renderChunkLoop] at hi
    rcases h0 : o.cancelledAt (2 * j)
    · rw [h0, if_neg Bool.false_ne_true] at hi
      rcases h1 : o.cancelledAt (2 * j + 1)
      · rw [h1, if_neg Bool.false_ne_true] at hi
        rcases h2 : o.renderOk (s + j)
        · rw [h2, if_neg Bool.false_ne_true] at hi
          exact Or.inl hi
        · rw [h2, if_pos rfl] at hi
          rcases ih (j + 1) (acc ++ [o.frameData (s + j)]) (accIdx ++ [s + j]) i hi
            with hmem | ⟨hlo, hhi, hf0, hf1⟩
          · rcases List.mem_append.mp hmem with hmem | hmem
            · exact Or.inl hmem
            · have : i = s + j := List.mem_singleton.mp hmem
              subst this
              refine Or.inr ⟨le_refl _, by omega, ?_, ?_⟩
              · rw [Nat.add_sub_cancel_left]; exact h0
              · rw [Nat.add_sub_cancel_left]; exact h1
          · exact Or.inr ⟨by omega, by omega, hf0, hf1⟩
      · rw [h1, if_pos rfl] at hi
        exact Or.inl hi
    · rw [h0, if_pos rfl] at hi
      exact Or.inl hi

/-- If the flag is observed set at some check within the remaining
window, the loop rejects. -/
theorem renderChunkLoop_flagged_errors (o : RenderOracle) (s : ℕ) :
    ∀ count j acc accIdx,
      (∃ m, j ≤ m ∧ m < j + count ∧
        (o.cancelledAt (2 * m) = true ∨ o.cancelledAt (2 * m + 1) = true)) →
      ∃ e, (renderChunkLoop o s count j acc accIdx).2 = .error e := by
  intro count
  induction count with
  | zero => intro j acc accIdx ⟨m, hm1, hm2, _⟩; omega
  | succ k ih =>
    intro j acc accIdx ⟨m, hm1, hm2, hmf⟩
    rw [renderChunkLoop]
    rcases h0 : o.cancelledAt (2 * j)
    · rw [if_neg Bool.false_ne_true]
      rcases h1 : o.cancelledAt (2 * j + 1)
      · rw [if_neg Bool.false_ne_true]
        rcases h2 : o.renderOk (s + j)
        · rw [if_neg Bool.false_ne_true]
          exact ⟨_, rfl⟩
        · rw [if_pos rfl]
          refine ih (j + 1) _ _ ⟨m, ?_, by omega, hmf⟩
          rcases Nat.eq_or_lt_of_le hm1 with he | hl
          · exfalso
            subst he
            rcases hmf with hf | hf
            · rw [h0] at hf; exact Bool.false_ne_true hf
            · rw [h1] at hf; exact Bool.false_ne_true hf
          · omega
      · rw [if_pos rfl]
        exact ⟨_, rfl⟩
    · rw [if_pos rfl]
      exact ⟨_, rfl⟩

/-- C7. `renderChunk` checks the cancellation flag before starting each
frame: if `cancel()` has set the flag by iteration `j`'s checks, the
chunk render rejects with an error (the remaining frames are discarded)
and every frame whose render was started belongs to an earlier
iteration, started only after both of its own flag checks observed the
flag clear. -/
theorem renderChunk_cancelled_stops (o : RenderOracle) (s c T j : ℕ)
    (hmono : ∀ k l, k ≤ l → o.cancelledAt k = true → o.cancelledAt l = true)
    (hj : j < min (s + c) T - s)
    (hflag : o.cancelledAt (2 * j) = true ∨ o.cancelledAt (2 * j + 1) = true) :
    (∃ e, (renderChunkRun o s c T).2 = Except.error e)
    ∧ ∀ i ∈ (renderChunkRun o s c T).1,
        i < s + j
        ∧ o.cancelledAt (2 * (i - s)) = false
        ∧ o.cancelledAt (2 * (i - s) + 1) = false := by
  constructor
  · exact renderChunkLoop_flagged_errors o s _ 0 [] [] ⟨j, by omega, by omega, hflag⟩
  · intro i hi
    rcases renderChunkLoop_started_sound o s _ 0 [] [] i hi
      with hmem | ⟨hlo, _, hf0, hf1⟩
    · exact absurd hmem (List.not_mem_nil i)
    · rw [Nat.add_zero] at hlo
      refine ⟨?_, hf0, hf1⟩
      by_contra hge
      have hij : j ≤ i - s := by omega
      rcases hflag with hf | hf
      · have h2 : o.cancelledAt (2 * (i - s)) = true :=
          hmono (2 * j) (2 * (i - s)) (by omega) hf
        rw [hf0] at h2
        exact Bool.false_ne_true h2
      · have h2 : o.cancelledAt (2 * (i - s) + 1) = true :=
          hmono (2 * j + 1) (2 * (i - s) + 1) (by omega) hf
        rw [hf1] at h2
        exact Bool.false_ne_true h2

/-- A render oracle whose cancellation flag is set starting from the
second iteration's loop check, all renders succeeding. -/
def sampleRenderOracle : RenderOracle :=
  ⟨fun k => decide (2 ≤ k), fun _ => true, fun i => toString i⟩

/-- Witness for `renderChunk_cancelled_stops`: chunk `[0, 3)`, flag set
from check number 2 on; only frame 0 is rendered, the run rejects. -/
theorem renderChunk_cancelled_stops_witness :
    (sampleRenderOracle.cancelledAt 2 = true ∨ sampleRenderOracle.cancelledAt 3 = true)
    ∧ (renderChunkRun sampleRenderOracle 0 3 10).1 = [0]
    ∧ ((∃ e, (renderChunkRun sampleRenderOracle 0 3 10).2 = Except.error e)
      ∧ ∀ i ∈ (renderChunkRun sampleRenderOracle 0 3 10).1,
          i < 0 + 1
          ∧ sampleRenderOracle.cancelledAt (2 * (i - 0)) = false
          ∧ sampleRenderOracle.cancelledAt (2 * (i - 0) + 1) = false) := by
  refine ⟨Or.inl (by decide), by with_unfolding_all rfl, ?_⟩
  refine renderChunk_cancelled_stops sampleRenderOracle 0 3 10 1 ?_ (by decide)
    (Or.inl (by decide))
  intro k l hkl h
  simp only [sampleRenderOracle, decide_eq_true_eq] at h ⊢
  omega

/-! ## `ExportController.start`: phases, progress and result

The controller emits progress records through the caller's callback and
resolves to a structured `ExportResult`.  The model reproduces, for
every possible interleaving of external failures and cancellations, the
exact sequence of progress records `start()` emits and the result it
resolves with.  The `estimatedTimeRemaining` field is derived from
`performance.now()` and appears in no claim; it is the one field the
model omits. -/

inductive ExportPhase
  | idle
  | initializing
  | rendering
  | encoding
  | merging
  | done
  | error
  | cancelled
deriving DecidableEq

/-- One progress record (`ExportProgress` without the wall-clock ETA). -/
structure ProgressRec where
  phase : ExportPhase
  currentFrame : ℕ
  totalFrames : ℕ
  currentChunk : ℕ
  totalChunks : ℕ
  percent : ℤ
  error : Option String
deriving DecidableEq

/-- `INITIAL_PROGRESS`. -/
def initialProgress : ProgressRec := ⟨.idle, 0, 0, 0, 0, 0, none⟩

/-- The two phase arguments `calculatePercent` accepts. -/
inductive PercentPhase
  | rendering
  | encoding
deriving DecidableEq

/-- `ExportController.calculatePercent`: rendering maps overall frame
progress onto `[0, 60]`, encoding onto `[60, 95]`. -/
def calculatePercent (currentFrame totalFrames : ℕ) (phase : PercentPhase) : ℤ :=
  let frameProgress : ℚ := (currentFrame : ℚ) / (totalFrames : ℚ)
  match phase with
  | .rendering => jsRound (frameProgress * 60)
  | .encoding => jsRound (60 + frameProgress * 35)

/-- The rendering-phase progress record the controller emits for overall
frame counter `j` during chunk `i`. -/
def renderingEmit (T N i j : ℕ) : ProgressRec :=
  ⟨.rendering, j, T, i, N, calculatePercent j T .rendering, none⟩

/-- The encoding-phase progress record the controller emits (directly
and from `encodeChunk`'s callbacks) during chunk `i`; the frame counter
stays at `startFrame + frameCount` throughout the chunk's encode. -/
def encodingEmit (T N i j : ℕ) : ProgressRec :=
  ⟨.encoding, j, T, i, N, calculatePercent j T .encoding, none⟩

/-- The record emitted from the `catch` block:
`{...INITIAL_PROGRESS, phase: cancelled ? 'cancelled' : 'error',
error: message}`. -/
def catchEmit (cancelledFlag : Bool) (msg : String) : ProgressRec :=
  ⟨if cancelledFlag then .cancelled else .error, 0, 0, 0, 0, 0, some msg⟩

/-- How one iteration of the `(render, encode)` loop can end.  The
numbers are clamped in `chunkEmits` to the counts a real execution can
produce: at most `frameCount` frames render before a failure, and at
most `frameCount + 1` encode-progress callbacks (`frameCount` writes
plus the pre-exec one) run before an encode failure. -/
inductive ChunkOutcome
  | cancelledBefore
  | renderFail (rendered : ℕ) (msg : String) (flagAtCatch : Bool)
  | cancelledAfterRender
  | encodeFail (emitted : ℕ) (msg : String) (flagAtCatch : Bool)
  | ok

/-- Oracle for one `start()` run: every external success/failure and
every cancellation-flag observation the run can make. -/
structure StartOracle where
  alreadyRunning : Bool
  hasWasm : Bool
  loadOk : Bool
  loadErr : String
  cancelledAfterLoad : Bool
  chunk : ℕ → ChunkOutcome
  cancelledBeforeMerge : Bool
  mergeOk : Bool
  mergeErr : String
  mergedData : String
  filename : String
  catchFlag : Bool

/-- The structured result `start()` resolves with. -/
structure ExportResultRec where
  success : Bool
  blob : Option String
  filename : Option String
  error : Option String
deriving DecidableEq

/-- The progress records emitted while processing chunk `i`, and the
failure (message, flag-at-catch) if the iteration threw. -/
def chunkEmits (o : StartOracle) (T N cf i : ℕ) : List ProgressRec × Option (String × Bool) :=
  let s := i * cf
  let c := min cf (T - s)
  match o.chunk i with
  | .cancelledBefore => ([], some ("导出已取消", true))
  | .renderFail k msg flag =>
    (renderingEmit T N i s ::
      (List.range (min k c)).map (fun t => renderingEmit T N i (s + t + 1)),
      some (msg, flag))
  | .cancelledAfterRender =>
    (renderingEmit T N i s ::
      (List.range c).map (fun t => renderingEmit T N i (s + t + 1)),
      some ("导出已取消", true))
  | .encodeFail w msg flag =>
    (renderingEmit T N i s ::
      (List.range c).map (fun t => renderingEmit T N i (s + t + 1))
      ++ encodingEmit T N i (s + c) ::
        List.replicate (min w (c + 1)) (encodingEmit T N i (s + c)),
      some (msg, flag))
  | .ok =>
    (renderingEmit T N i s ::
      (List.range c).map (fun t => renderingEmit T N i (s + t + 1))
      ++ encodingEmit T N i (s + c) ::
        List.replicate (c + 4) (encodingEmit T N i (s + c)),
      none)

/-- The chunk loop of `start()`: iterate chunk indices, stopping at the
first failing iteration. -/
def loopEmits (o : StartOracle) (T N cf : ℕ) :
    ℕ → ℕ → List ProgressRec × Option (String × Bool)
  | 0, _ => ([], none)
  | n + 1, i =>
    match chunkEmits o T N cf i with
    | (es, some f) => (es, some f)
    | (es, none) =>
      let rest := loopEmits o T N cf n (i + 1)
      (es ++ rest.1, rest.2)

/-- `ExportController.start()`: the structured result it resolves with
and the sequence of progress records it emits, for one oracle. -/
def startRun (o : StartOracle) (duration : ℚ) (fps cf : ℕ) :
    ExportResultRec × List ProgressRec :=
  if o.alreadyRunning then (⟨false, none, none, some "导出正在进行中"⟩, [])
  else
    let T := totalFramesOf duration fps
    let N := totalChunksOf T cf
    let init : ProgressRec := ⟨.initializing, 0, 0, 0, 0, 0, none⟩
    if !o.hasWasm then
      (⟨false, none, none, some "浏览器不支持 WebAssembly"⟩,
        [init, catchEmit o.catchFlag "浏览器不支持 WebAssembly"])
    else if !o.loadOk then
      (⟨false, none, none, some o.loadErr⟩, [init, catchEmit o.catchFlag o.loadErr])
    else if o.cancelledAfterLoad then
      (⟨false, none, none, some "导出已取消"⟩, [init, catchEmit true "导出已取消"])
    else
      match loopEmits o T N cf N 0 with
      | (es, some (msg, flag)) =>
        (⟨false, none, none, some msg⟩, init :: es ++ [catchEmit flag msg])
      | (es, none) =>
        if o.cancelledBeforeMerge then
          (⟨false, none, none, some "导出已取消"⟩, init :: es ++ [catchEmit true "导出已取消"])
        else
          let mergingRec : ProgressRec := ⟨.merging, T, T, N, N, 95, none⟩
          if !o.mergeOk then
            (⟨false, none, none, some o.mergeErr⟩,
              init :: es ++ [mergingRec, catchEmit o.catchFlag o.mergeErr])
          else
            let doneRec : ProgressRec := ⟨.done, T, T, N, N, 100, none⟩
            (⟨true, some o.mergedData, some o.filename, none⟩,
              init :: es ++ [mergingRec, doneRec])

/-- C8. `start()` always resolves to a structured result, whatever
combination of failures and cancellations occurs: on success the result
carries the output blob and a filename and no error; on any internal
failure or cancellation it carries `success = false` and the error
message — nothing is thrown past the session boundary (the model is a
total function into `ExportResultRec`). -/
theorem start_resolves_structured (o : StartOracle) (duration : ℚ) (fps cf : ℕ) :
    ((startRun o duration fps cf).1.success = true
      ∧ ((startRun o duration fps cf).1.blob).isSome = true
      ∧ ((startRun o duration fps cf).1.filename).isSome = true
      ∧ (startRun o duration fps cf).1.error = none)
    ∨ ((startRun o duration fps cf).1.success = false
      ∧ ∃ e, (startRun o duration fps cf).1.error = some e) := by
  simp only [startRun]
  rcases ha : o.alreadyRunning
  · rw [if_neg Bool.false_ne_true]
    rcases hw : o.hasWasm
    · rw [Bool.not_false, if_pos rfl]
      exact Or.inr ⟨rfl, ⟨_, rfl⟩⟩
    · rw [Bool.not_true, if_neg Bool.false_ne_true]
      rcases hl : o.loadOk
      · rw [Bool.not_false, if_pos rfl]
        exact Or.inr ⟨rfl, ⟨_, rfl⟩⟩
      · rw [Bool.not_true, if_neg Bool.false_ne_true]
        rcases hc : o.cancelledAfterLoad
        · rw [if_neg Bool.false_ne_true]
          rcases hlp : loopEmits o (totalFramesOf duration fps)
              (totalChunksOf (totalFramesOf duration fps) cf) cf
              (totalChunksOf (totalFramesOf duration fps) cf) 0 with ⟨es, f⟩
          rcases f with _ | ⟨msg, flag⟩
          · dsimp only
            rcases hm : o.cancelledBeforeMerge
            · rw [if_neg Bool.false_ne_true]
              rcases hmo : o.mergeOk
              · rw [Bool.not_false, if_pos rfl]
                exact Or.inr ⟨rfl, ⟨_, rfl⟩⟩
              · rw [Bool.not_true, if_neg Bool.false_ne_true]
                exact Or.inl ⟨rfl, rfl, rfl, rfl⟩
            · rw [if_pos rfl]
              exact Or.inr ⟨rfl, ⟨_, rfl⟩⟩
          · dsimp only
            exact Or.inr ⟨rfl, ⟨msg, rfl⟩⟩
        · rw [if_pos rfl]
          exact Or.inr ⟨rfl, ⟨_, rfl⟩⟩
  · rw [if_pos rfl]
    exact Or.inr ⟨rfl, ⟨_, rfl⟩⟩

/-! ## C1: progress percent bounds and (non-)monotonicity -/

/-- `jsRound` is monotone. -/
theorem jsRound_mono {q r : ℚ} (h : q ≤ r) : jsRound q ≤ jsRound r := by
  rw [jsRound_eq, jsRound_eq]
  exact Int.floor_le_floor (by linarith)

/-- `jsRound` of a non-negative rational is non-negative. -/
theorem jsRound_nonneg {q : ℚ} (h : 0 ≤ q) : 0 ≤ jsRound q := by
  rw [jsRound_eq]
  exact Int.le_floor.mpr (by push_cast; linarith)

/-- `jsRound` of an integer is that integer. -/
theorem jsRound_intCast (n : ℤ) : jsRound (n : ℚ) = n := by
  rw [jsRound_eq]
  rw [show ((n : ℚ) + 1 / 2) = (1 : ℚ) / 2 + n by ring]
  rw [Int.floor_add_int]
  norm_num

/-- The overall frame fraction `currentFrame / totalFrames` lies in
`[0, 1]` whenever `currentFrame ≤ totalFrames`. -/
theorem frameProgress_mem (j T : ℕ) (h : j ≤ T) :
    0 ≤ ((j : ℚ) / (T : ℚ)) ∧ ((j : ℚ) / (T : ℚ)) ≤ 1 := by
  rcases Nat.eq_zero_or_pos T with hT | hT
  · subst hT
    interval_cases j
    norm_num
  · have hT' : (0 : ℚ) < (T : ℚ) := by exact_mod_cast hT
    constructor
    · positivity
    · rw [div_le_one hT']
      exact_mod_cast h

/-- Rendering-phase percents lie in `[0, 60]`. -/
theorem calc_rendering_bounds (j T : ℕ) (h : j ≤ T) :
    0 ≤ calculatePercent j T .rendering ∧ calculatePercent j T .rendering ≤ 60 := by
  obtain ⟨h0, h1⟩ := frameProgress_mem j T h
  rw [calculatePercent]
  constructor
  · exact jsRound_nonneg (by nlinarith)
  · calc jsRound ((j : ℚ) / (T : ℚ) * 60) ≤ jsRound ((60 : ℤ) : ℚ) :=
        jsRound_mono (by push_cast; nlinarith)
      _ = 60 := jsRound_intCast 60

/-- Encoding-phase percents lie in `[60, 95]`. -/
theorem calc_encoding_bounds (j T : ℕ) (h : j ≤ T) :
    60 ≤ calculatePercent j T .encoding ∧ calculatePercent j T .encoding ≤ 95 := by
  obtain ⟨h0, h1⟩ := frameProgress_mem j T h
  rw [calculatePercent]
  constructor
  · calc (60 : ℤ) = jsRound ((60 : ℤ) : ℚ) := (jsRound_intCast 60).symm
      _ ≤ jsRound (60 + (j : ℚ) / (T : ℚ) * 35) := jsRound_mono (by push_cast; nlinarith)
  · calc jsRound (60 + (j : ℚ) / (T : ℚ) * 35) ≤ jsRound ((95 : ℤ) : ℚ) :=
        jsRound_mono (by push_cast; nlinarith)
      _ = 95 := jsRound_intCast 95

/-- Rendering-phase percents are monotone in the frame counter. -/
theorem calc_rendering_mono (j k T : ℕ) (h : j ≤ k) :
    calculatePercent j T .rendering ≤ calculatePercent k T .rendering := by
  rw [calculatePercent, calculatePercent]
  apply jsRound_mono
  rcases Nat.eq_zero_or_pos T with hT | hT
  · subst hT
    norm_num
  · have hT' : (0 : ℚ) < (T : ℚ) := by exact_mod_cast hT
    have hjk : (j : ℚ) ≤ (k : ℚ) := by exact_mod_cast h
    have hdiv : (j : ℚ) / (T : ℚ) ≤ (k : ℚ) / (T : ℚ) :=
      (div_le_div_iff_of_pos_right hT').mpr hjk
    nlinarith

/-- Every record emitted while processing a chunk that the loop really
reaches (`i < totalChunks`) has its percent in `[0, 100]`. -/
theorem chunkEmits_bounded (o : StartOracle) (T cf i : ℕ) (hcf : 0 < cf)
    (hi : i + 1 ≤ totalChunksOf T cf) :
    ∀ p ∈ (chunkEmits o T (totalChunksOf T cf) cf i).1,
      0 ≤ p.percent ∧ p.percent ≤ 100 := by
  have hs : i * cf < T := mul_lt_of_lt_totalChunks T cf i hcf hi
  have hsc : i * cf + min cf (T - i * cf) ≤ T := by omega
  set N := totalChunksOf T cf
  have hr : ∀ j, j ≤ T → 0 ≤ (renderingEmit T N i j).percent
      ∧ (renderingEmit T N i j).percent ≤ 100 := by
    intro j hj
    obtain ⟨h0, h1⟩ := calc_rendering_bounds j T hj
    simp only [renderingEmit]
    exact ⟨h0, by omega⟩
  have he : ∀ j, j ≤ T → 0 ≤ (encodingEmit T N i j).percent
      ∧ (encodingEmit T N i j).percent ≤ 100 := by
    intro j hj
    obtain ⟨h0, h1⟩ := calc_encoding_bounds j T hj
    simp only [encodingEmit]
    exact ⟨by omega, by omega⟩
  intro p hp
  rw [chunkEmits] at hp
  rcases hoc : o.chunk i with _ | ⟨k, msg, flag⟩ | _ | ⟨w, msg, flag⟩ | _ <;>
    rw [hoc] at hp <;> dsimp only at hp
  · exact absurd hp (List.not_mem_nil p)
  · rcases List.mem_cons.mp hp with hp | hp
    · subst hp; exact hr _ (le_of_lt hs)
    · obtain ⟨t, ht, hpt⟩ := List.mem_map.mp hp
      have ht' := List.mem_range.mp ht
      subst hpt
      exact hr _ (by omega)
  · rcases List.mem_cons.mp hp with hp | hp
    · subst hp; exact hr _ (le_of_lt hs)
    · obtain ⟨t, ht, hpt⟩ := List.mem_map.mp hp
      have := List.mem_range.mp ht
      subst hpt
      exact hr _ (by omega)
  · rcases List.mem_cons.mp hp with hp | hp
    · subst hp; exact hr _ (le_of_lt hs)
    · rcases List.mem_append.mp hp with hp | hp
      · obtain ⟨t, ht, hpt⟩ := List.mem_map.mp hp
        have := List.mem_range.mp ht
        subst hpt
        exact hr _ (by omega)
      · rcases List.mem_cons.mp hp with hp | hp
        · subst hp; exact he _ hsc
        · obtain ⟨_, hpt⟩ := List.mem_replicate.mp hp
          subst hpt
          exact he _ hsc
  · rcases List.mem_cons.mp hp with hp | hp
    · subst hp; exact hr _ (le_of_lt hs)
    · rcases List.mem_append.mp hp with hp | hp
      · obtain ⟨t, ht, hpt⟩ := List.mem_map.mp hp
        have := List.mem_range.mp ht
        subst hpt
        exact hr _ (by omega)
      · rcases List.mem_cons.mp hp with hp | hp
        · subst hp; exact he _ hsc
        · obtain ⟨_, hpt⟩ := List.mem_replicate.mp hp
          subst hpt
          exact he _ hsc

/-- Every record emitted by the chunk loop has its percent in
`[0, 100]`. -/
theorem loopEmits_bounded (o : StartOracle) (T cf : ℕ) (hcf : 0 < cf) :
    ∀ n i, i + n ≤ totalChunksOf T cf →
      ∀ p ∈ (loopEmits o T (totalChunksOf T cf) cf n i).1,
        0 ≤ p.percent ∧ p.percent ≤ 100 := by
  intro n
  induction n with
  | zero => intro i _ p hp; exact absurd hp (List.not_mem_nil p)
  | succ m ih =>
    intro i hin p hp
    rw [loopEmits] at hp
    rcases hce : chunkEmits o T (totalChunksOf T cf) cf i with ⟨es, f⟩
    rw [hce] at hp
    have hbnd := chunkEmits_bounded o T cf i hcf (by omega)
    rw [hce] at hbnd
    rcases f with _ | f
    · dsimp only at hp
      rcases List.mem_append.mp hp with hp | hp
      · exact hbnd p hp
      · exact ih (i + 1) (by omega) p hp
    · exact hbnd p hp

/-- `totalFrames ≥ 1` for any positive duration and frame rate. -/
theorem totalFramesOf_pos (duration : ℚ) (fps : ℕ) (hd : 0 < duration)
    (hfps : 0 < fps) : 0 < totalFramesOf duration fps := by
  have hfq : (0 : ℚ) < (fps : ℚ) := by exact_mod_cast hfps
  have hceil : 1 ≤ ⌈duration * (fps : ℚ)⌉ := by
    rw [Int.le_ceil_iff]
    push_cast
    nlinarith
  have : (0 : ℤ) < (totalFramesOf duration fps : ℤ) := by
    rw [totalFramesOf, Int.toNat_of_nonneg (by omega)]
    omega
  exact_mod_cast this

/-- An export that fits in one chunk has exactly one chunk. -/
theorem totalChunksOf_one (T cf : ℕ) (hT : 0 < T) (h : T ≤ cf) :
    totalChunksOf T cf = 1 := by
  have hcf : 0 < cf := lt_of_lt_of_le hT h
  rcases Nat.lt_or_ge T cf with hlt | hge
  · rw [totalChunksOf_eq T cf hcf, Nat.div_eq_of_lt hlt, Nat.mod_eq_of_lt hlt,
      if_neg (by omega)]
  · have hTcf : T = cf := le_antisymm h hge
    subst hTcf
    rw [totalChunksOf_eq T T hcf, Nat.div_self hcf, Nat.mod_self, if_pos rfl]

/-- At frame 0 the rendering percent is 0. -/
theorem calc_rendering_zero (T : ℕ) : calculatePercent 0 T .rendering = 0 := by
  rw [calculatePercent]
  norm_num
  exact jsRound_intCast 0

/-- At the final frame the rendering percent is exactly 60. -/
theorem calc_rendering_full (T : ℕ) (hT : 0 < T) :
    calculatePercent T T .rendering = 60 := by
  have hT' : (T : ℚ) ≠ 0 := by
    have : (0 : ℚ) < (T : ℚ) := by exact_mod_cast hT
    exact ne_of_gt this
  rw [calculatePercent]
  rw [show ((T : ℚ) / (T : ℚ) * 60) = ((60 : ℤ) : ℚ) by field_simp]
  exact jsRound_intCast 60

/-- At the final frame the encoding percent is exactly 95. -/
theorem calc_encoding_full (T : ℕ) (hT : 0 < T) :
    calculatePercent T T .encoding = 95 := by
  have hT' : (T : ℚ) ≠ 0 := by
    have : (0 : ℚ) < (T : ℚ) := by exact_mod_cast hT
    exact ne_of_gt this
  rw [calculatePercent]
  rw [show ((60 : ℚ) + (T : ℚ) / (T : ℚ) * 35) = ((95 : ℤ) : ℚ) by field_simp; ring]
  exact jsRound_intCast 95

/-- A member of `getLast?` is a member of the list. -/
theorem mem_of_mem_getLast?' {l : List ℤ} {a : ℤ} (h : a ∈ l.getLast?) : a ∈ l := by
  obtain ⟨hne, rfl⟩ := List.mem_getLast?_eq_getLast h
  exact List.getLast_mem hne

/-- A map of a monotone function over a contiguous index range is a
`≤`-chain. -/
theorem chain_le_map_range' (f : ℕ → ℤ) (hf : ∀ t, f t ≤ f (t + 1)) :
    ∀ n s, List.Chain' (fun a b => a ≤ b) ((List.range' s n).map f) := by
  intro n
  induction n with
  | zero => intro s; simp
  | succ m ih =>
    intro s
    rw [List.range'_succ, List.map_cons]
    cases m with
    | zero => simp
    | succ k =>
      rw [List.range'_succ, List.map_cons, List.chain'_cons]
      refine ⟨hf s, ?_⟩
      rw [← List.map_cons, ← List.range'_succ]
      exact ih (s + 1)

/-- The tail of a single-chunk success trace —
`95 :: replicate n 95 ++ [95, 100]` — is a `≤`-chain. -/
theorem chain_95_tail : ∀ n : ℕ,
    List.Chain' (fun a b => a ≤ b) ((95 : ℤ) :: (List.replicate n 95 ++ [95, 100])) := by
  intro n
  induction n with
  | zero =>
    rw [List.replicate, List.nil_append, List.chain'_cons, List.chain'_cons]
    exact ⟨le_refl _, by norm_num, List.chain'_singleton _⟩
  | succ m ih =>
    rw [List.replicate_succ, List.cons_append, List.chain'_cons]
    exact ⟨le_refl _, ih⟩

/-- Executable `≤`-chain check on integer lists (the `Chain'`
decidability instance in the library does not reduce). -/
def chainLeB : List ℤ → Bool
  | [] => true
  | [_] => true
  | a :: b :: l => decide (a ≤ b) && chainLeB (b :: l)

/-- `chainLeB` decides `List.Chain' (· ≤ ·)`. -/
theorem chainLeB_iff : ∀ l : List ℤ,
    chainLeB l = true ↔ List.Chain' (fun a b => a ≤ b) l
  | [] => by simp [chainLeB]
  | [a] => by simp [chainLeB]
  | a :: b :: l => by
    rw [chainLeB, List.chain'_cons, Bool.and_eq_true, decide_eq_true_iff]
    exact and_congr Iff.rfl (chainLeB_iff (b :: l))

/-- The oracle of a run in which every external step succeeds and no
cancellation is requested. -/
def allOkStartOracle : StartOracle :=
  ⟨false, true, true, "", false, fun _ => .ok, false, true, "",
    "merged-bytes", "canvas_export.mov", false⟩

/-- Counterexample to C1 as stated: at the spec's own concrete scenario
(`fps = 30`, `duration = 2 s`, `chunkFrames = 30`, so two chunks), the
fully successful run's percent sequence is NOT monotone non-decreasing —
after chunk 0's encode reaches 78 % the controller's rendering-phase
emission for chunk 1 drops back to 30 %. -/
theorem progress_percent_not_monotonic :
    ¬ List.Chain' (fun a b => a ≤ b)
      ((startRun allOkStartOracle 2 30 30).2.map (fun p => p.percent)) := by
  have h : chainLeB ((startRun allOkStartOracle 2 30 30).2.map (fun p => p.percent))
      = false := by with_unfolding_all rfl
  intro hc
  rw [(chainLeB_iff _).mpr hc] at h
  exact absurd h (by simp)

/-- A member of `head?` is a member of the list. -/
theorem mem_of_mem_head?' {l : List ℤ} {a : ℤ} (h : a ∈ l.head?) : a ∈ l := by
  cases l with
  | nil => exact absurd h (by simp)
  | cons x t =>
    rw [List.head?_cons, Option.mem_some_iff] at h
    exact h ▸ List.mem_cons_self x t

/-- The percent sequence of a successful single-chunk run is a
`≤`-chain: `0, 0, r(1) … r(T), 95 × (T+5), 95, 100` with `r`
non-decreasing inside `[0, 60]`. -/
theorem chain_single_percents (T : ℕ) (hT : 0 < T) :
    List.Chain' (fun a b => a ≤ b)
      ((0 : ℤ) :: calculatePercent 0 T .rendering ::
        (((List.range T).map fun t => calculatePercent (t + 1) T .rendering)
          ++ calculatePercent T T .encoding ::
            (List.replicate (T + 4) (calculatePercent T T .encoding) ++ [95, 100]))) := by
  rw [calc_rendering_zero, calc_encoding_full T hT]
  rw [List.chain'_cons']
  refine ⟨?_, ?_⟩
  · intro y hy
    rw [List.head?_cons, Option.mem_some_iff] at hy
    omega
  rw [List.chain'_cons']
  refine ⟨?_, ?_⟩
  · intro y hy
    have hy' := mem_of_mem_head?' hy
    rcases List.mem_append.mp hy' with hy' | hy'
    · obtain ⟨t, ht, rfl⟩ := List.mem_map.mp hy'
      exact (calc_rendering_bounds (t + 1) T (by have := List.mem_range.mp ht; omega)).1
    · rcases List.mem_cons.mp hy' with rfl | hy'
      · norm_num
      · rcases List.mem_append.mp hy' with hy' | hy'
        · obtain ⟨_, rfl⟩ := List.mem_replicate.mp hy'
          norm_num
        · rcases List.mem_cons.mp hy' with rfl | hy'
          · norm_num
          · rcases List.mem_cons.mp hy' with rfl | hy'
            · norm_num
            · exact absurd hy' (List.not_mem_nil _)
  rw [List.chain'_append]
  refine ⟨?_, ?_, ?_⟩
  · rw [List.range_eq_range']
    exact chain_le_map_range' (fun t => calculatePercent (t + 1) T .rendering)
      (fun t => calc_rendering_mono (t + 1) (t + 2) T (by omega)) T 0
  · exact chain_95_tail (T + 4)
  · intro x hx y hy
    have hx' := mem_of_mem_getLast?' hx
    obtain ⟨t, ht, rfl⟩ := List.mem_map.mp hx'
    rw [List.head?_cons, Option.mem_some_iff] at hy
    subst hy
    have := (calc_rendering_bounds (t + 1) T (by have := List.mem_range.mp ht; omega)).2
    omega

/-- C1 (amended). Every percent value any run delivers — across
initializing, rendering, encoding, merging, done, and the error/
cancelled terminal emission, over all chunks — lies in `[0, 100]`; and
when the whole export fits in a single chunk
(`totalFrames ≤ chunkFrames`) a successful run's percent sequence is
monotone non-decreasing.  For multi-chunk runs monotonicity fails (see
the counterexample): the encoding band `[60, 95]` of one chunk is
followed by the rendering band `[0, 60]` of the next. -/
theorem progress_percent_bounded_and_single_chunk_monotone
    (o : StartOracle) (duration : ℚ) (fps cf : ℕ)
    (hd : 0 < duration) (hfps : 0 < fps) (hcf : 0 < cf) :
    (∀ p ∈ (startRun o duration fps cf).2, 0 ≤ p.percent ∧ p.percent ≤ 100)
    ∧ (totalFramesOf duration fps ≤ cf →
      (startRun o duration fps cf).1.success = true →
      List.Chain' (fun a b => a ≤ b)
        ((startRun o duration fps cf).2.map (fun p => p.percent))) := by
  have hT : 0 < totalFramesOf duration fps := totalFramesOf_pos duration fps hd hfps
  have hloopb := loopEmits_bounded o (totalFramesOf duration fps) cf hcf
    (totalChunksOf (totalFramesOf duration fps) cf) 0 (by omega)
  constructor
  · -- (a) boundedness, by cases over every exit path of the run
    intro p hp
    rw [startRun] at hp
    rcases ha : o.alreadyRunning
    · rw [ha, if_neg Bool.false_ne_true] at hp
      rcases hw : o.hasWasm
      · rw [hw, Bool.not_false, if_pos rfl] at hp
        rcases List.mem_cons.mp hp with rfl | hp
        · exact ⟨le_refl _, by norm_num⟩
        · rcases List.mem_cons.mp hp with rfl | hp
          · rw [catchEmit]; exact ⟨le_refl _, by norm_num⟩
          · exact absurd hp (List.not_mem_nil p)
      · rw [hw, Bool.not_true, if_neg Bool.false_ne_true] at hp
        rcases hl : o.loadOk
        · rw [hl, Bool.not_false, if_pos rfl] at hp
          rcases List.mem_cons.mp hp with rfl | hp
          · exact ⟨le_refl _, by norm_num⟩
          · rcases List.mem_cons.mp hp with rfl | hp
            · rw [catchEmit]; exact ⟨le_refl _, by norm_num⟩
            · exact absurd hp (List.not_mem_nil p)
        · rw [hl, Bool.not_true, if_neg Bool.false_ne_true] at hp
          rcases hc : o.cancelledAfterLoad
          · rw [hc, if_neg Bool.false_ne_true] at hp
            rcases hlp : loopEmits o (totalFramesOf duration fps)
                (totalChunksOf (totalFramesOf duration fps) cf) cf
                (totalChunksOf (totalFramesOf duration fps) cf) 0 with ⟨es, f⟩
            rw [hlp] at hp hloopb
            rcases f with _ | ⟨msg, flag⟩
            · dsimp only at hp
              rcases hm : o.cancelledBeforeMerge
              · rw [hm, if_neg Bool.false_ne_true] at hp
                rcases hmo : o.mergeOk
                · rw [hmo, Bool.not_false, if_pos rfl] at hp
                  rcases List.mem_cons.mp hp with rfl | hp
                  · exact ⟨le_refl _, by norm_num⟩
                  · rcases List.mem_append.mp hp with hp | hp
                    · exact hloopb p hp
                    · rcases List.mem_cons.mp hp with rfl | hp
                      · exact ⟨by norm_num, by norm_num⟩
                      · rcases List.mem_cons.mp hp with rfl | hp
                        · rw [catchEmit]; exact ⟨le_refl _, by norm_num⟩
                        · exact absurd hp (List.not_mem_nil p)
                · rw [hmo, Bool.not_true, if_neg Bool.false_ne_true] at hp
                  rcases List.mem_cons.mp hp with rfl | hp
                  · exact ⟨le_refl _, by norm_num⟩
                  · rcases List.mem_append.mp hp with hp | hp
                    · exact hloopb p hp
                    · rcases List.mem_cons.mp hp with rfl | hp
                      · exact ⟨by norm_num, by norm_num⟩
                      · rcases List.mem_cons.mp hp with rfl | hp
                        · exact ⟨by norm_num, by norm_num⟩
                        · exact absurd hp (List.not_mem_nil p)
              · rw [hm, if_pos rfl] at hp
                rcases List.mem_cons.mp hp with rfl | hp
                · exact ⟨le_refl _, by norm_num⟩
                · rcases List.mem_append.mp hp with hp | hp
                  · exact hloopb p hp
                  · rcases List.mem_cons.mp hp with rfl | hp
                    · rw [catchEmit]; exact ⟨le_refl _, by norm_num⟩
                    · exact absurd hp (List.not_mem_nil p)
            · dsimp only at hp
              rcases List.mem_cons.mp hp with rfl | hp
              · exact ⟨le_refl _, by norm_num⟩
              · rcases List.mem_append.mp hp with hp | hp
                · exact hloopb p hp
                · rcases List.mem_cons.mp hp with rfl | hp
                  · rw [catchEmit]; exact ⟨le_refl _, by norm_num⟩
                  · exact absurd hp (List.not_mem_nil p)
          · rw [hc, if_pos rfl] at hp
            rcases List.mem_cons.mp hp with rfl | hp
            · exact ⟨le_refl _, by norm_num⟩
            · rcases List.mem_cons.mp hp with rfl | hp
              · rw [catchEmit]; exact ⟨le_refl _, by norm_num⟩
              · exact absurd hp (List.not_mem_nil p)
    · rw [ha, if_pos rfl] at hp
      exact absurd hp (List.not_mem_nil p)
  · -- (b) single-chunk successful runs are monotone
    intro hTle hsucc
    rw [startRun] at hsucc ⊢
    rcases ha : o.alreadyRunning
    · rw [ha] at hsucc
      rw [if_neg Bool.false_ne_true] at hsucc ⊢
      rcases hw : o.hasWasm
      · rw [hw, Bool.not_false, if_pos rfl] at hsucc
        exact absurd hsucc Bool.false_ne_true
      · rw [hw] at hsucc
        rw [Bool.not_true, if_neg Bool.false_ne_true] at hsucc ⊢
        rcases hl : o.loadOk
        · rw [hl, Bool.not_false, if_pos rfl] at hsucc
          exact absurd hsucc Bool.false_ne_true
        · rw [hl] at hsucc
          rw [Bool.not_true, if_neg Bool.false_ne_true] at hsucc ⊢
          rcases hc : o.cancelledAfterLoad
          · rw [hc] at hsucc
            rw [if_neg Bool.false_ne_true] at hsucc ⊢
            have hN1 : totalChunksOf (totalFramesOf duration fps) cf = 1 :=
              totalChunksOf_one _ cf hT hTle
            rw [hN1] at hsucc ⊢
            rw [loopEmits] at hsucc ⊢
            rcases hce : chunkEmits o (totalFramesOf duration fps) 1 cf 0 with ⟨es0, f0⟩
            rw [hce] at hsucc
            rcases f0 with _ | f0
            · rw [show loopEmits o (totalFramesOf duration fps) 1 cf 0 (0 + 1)
                  = ([], none) from rfl] at hsucc ⊢
              dsimp only at hsucc ⊢
              simp only [List.append_nil] at hsucc ⊢
              rcases hm : o.cancelledBeforeMerge
              · rw [hm] at hsucc
                rw [if_neg Bool.false_ne_true] at hsucc ⊢
                rcases hmo : o.mergeOk
                · rw [hmo, Bool.not_false, if_pos rfl] at hsucc
                  exact absurd hsucc Bool.false_ne_true
                · rw [hmo] at hsucc
                  rw [Bool.not_true, if_neg Bool.false_ne_true] at hsucc ⊢
                  -- the successful single-chunk trace
                  rw [chunkEmits] at hce
                  rcases hoc : o.chunk 0 <;> rw [hoc] at hce <;> dsimp only at hce
                  case cancelledBefore => exact absurd (congrArg Prod.snd hce) (by simp)
                  case renderFail k msg flag =>
                    exact absurd (congrArg Prod.snd hce) (by simp)
                  case cancelledAfterRender =>
                    exact absurd (congrArg Prod.snd hce) (by simp)
                  case encodeFail w msg flag =>
                    exact absurd (congrArg Prod.snd hce) (by simp)
                  case ok =>
                    have hes0 := congrArg Prod.fst hce
                    dsimp only at hes0
                    simp only [Nat.zero_mul, Nat.sub_zero, Nat.zero_add,
                      min_eq_right hTle] at hes0
                    rw [← hes0]
                    simp only [List.map_cons, List.map_append, List.map_map,
                      List.map_replicate, List.cons_append, List.append_assoc,
                      List.nil_append, Function.comp, renderingEmit, encodingEmit]
                    exact chain_single_percents (totalFramesOf duration fps) hT
              · rw [hm, if_pos rfl] at hsucc
                exact absurd hsucc Bool.false_ne_true
            · rcases f0 with ⟨msg, flag⟩
              dsimp only at hsucc
              exact absurd hsucc Bool.false_ne_true
          · rw [hc, if_pos rfl] at hsucc
            exact absurd hsucc Bool.false_ne_true
    · rw [ha, if_pos rfl] at hsucc
      exact absurd hsucc Bool.false_ne_true

/-- Witness for
`progress_percent_bounded_and_single_chunk_monotone`: the fully
successful single-chunk run `duration = 1 s, fps = 30, chunkFrames = 30`
(`totalFrames = 30`). -/
theorem progress_percent_bounded_witness :
    (0 : ℚ) < 1 ∧ 0 < 30 ∧ totalFramesOf 1 30 = 30
    ∧ (startRun allOkStartOracle 1 30 30).1.success = true
    ∧ ((∀ p ∈ (startRun allOkStartOracle 1 30 30).2, 0 ≤ p.percent ∧ p.percent ≤ 100)
      ∧ (totalFramesOf 1 30 ≤ 30 →
        (startRun allOkStartOracle 1 30 30).1.success = true →
        List.Chain' (fun a b => a ≤ b)
          ((startRun allOkStartOracle 1 30 30).2.map (fun p => p.percent)))) :=
  ⟨by norm_num, by norm_num, by with_unfolding_all rfl, by with_unfolding_all rfl,
    progress_percent_bounded_and_single_chunk_monotone allOkStartOracle 1 30 30
      (by norm_num) (by norm_num) (by norm_num)⟩

/-! ## C6: merge receives the parts in ascending chunk order and
issues one stream-copy concatenation -/

/-- A successful `encodeChunk` call appends exactly `part_<i>.mov` to
the recorded list and leaves the cancellation flag unchanged. -/
theorem encodeChunk_ok_state (o : EncodeOracle) (st : EncoderState) (i : ℕ)
    (frames : List String) (fs : WorkerFS) (p : String)
    (h : (encodeChunk o st i frames fs).result = .ok p) :
    (encodeChunk o st i frames fs).state =
      ⟨st.partPaths ++ [getPartFilename i], st.cancelled⟩ := by
  rw [encodeChunk] at h ⊢
  rcases hc : st.cancelled
  · simp only [hc, Bool.false_eq_true, if_false] at h ⊢
    rcases hcd : o.createDirOk
    · simp only [hcd, Bool.not_false, if_true] at h
      exact absurd h (by simp)
    · simp only [hcd, Bool.not_true, Bool.false_eq_true, if_false] at h ⊢
      rcases hw : writeFrames o (getChunkDirName i) 0 frames
          (fs.createDir (getChunkDirName i)) with ⟨fs2, err⟩
      simp only [hw] at h ⊢
      rcases err with _ | e
      · rcases hex : o.execOk
        · simp only [hex, Bool.not_false, if_true] at h
          exact absurd h (by simp)
        · simp only [hex, Bool.not_true, Bool.false_eq_true, if_false] at h ⊢
      · exact absurd h (by simp)
  · simp only [hc, eq_self_iff_true, if_true] at h
    exact absurd h (by simp)

/-- The per-chunk `(render, encode)` loop of `start()`, restricted to
its interaction with the chunked encoder: chunk `i` is encoded with the
loop index as its `chunkIndex`, and the loop stops at the first
failure. -/
def encodeLoop (os : ℕ → EncodeOracle) (framesOf : ℕ → List String) :
    ℕ → ℕ → EncoderState → WorkerFS → Except String (EncoderState × WorkerFS)
  | 0, _, st, fs => .ok (st, fs)
  | n + 1, i, st, fs =>
    let r := encodeChunk (os i) st i (framesOf i) fs
    match r.result with
    | .ok _ => encodeLoop os framesOf n (i + 1) r.state r.fs
    | .error e => .error e

/-- After a fully successful loop over chunks `i, …, i+n-1`, the
recorded part list has grown by exactly `part_i … part_{i+n-1}`, in that
order, and the cancellation flag is unchanged. -/
theorem encodeLoop_ok_partPaths (os : ℕ → EncodeOracle)
    (framesOf : ℕ → List String) :
    ∀ n i st fs st' fs',
      encodeLoop os framesOf n i st fs = .ok (st', fs') →
      st'.partPaths = st.partPaths ++ (List.range' i n).map getPartFilename
      ∧ st'.cancelled = st.cancelled := by
  intro n
  induction n with
  | zero =>
    intro i st fs st' fs' h
    rw [encodeLoop] at h
    cases h
    simp
  | succ m ih =>
    intro i st fs st' fs' h
    rw [encodeLoop] at h
    rcases hr : (encodeChunk (os i) st i (framesOf i) fs).result with e | p
    · rw [hr] at h
      dsimp only at h
      exact absurd h (by simp)
    · rw [hr] at h
      dsimp only at h
      obtain ⟨h1, h2⟩ := ih (i + 1) _ _ st' fs' h
      rw [encodeChunk_ok_state (os i) st i (framesOf i) fs p hr] at h1 h2
      refine ⟨?_, h2⟩
      rw [h1, List.range'_succ, List.map_cons]
      simp

/-- C6. When every chunk of a multi-chunk run encodes successfully, the
recorded segment list handed to `mergeChunks` is exactly
`part_000 … part_{N-1}` in ascending chunkIndex order; `mergeChunks`
then writes, as its first write, the newline-delimited concat list whose
`k`-th line references `part_k`, and issues exactly one FFmpeg command —
the concatenation with stream copy (`-c copy`, no re-encode). -/
theorem mergeChunks_ascending_stream_copy (mo : MergeOracle)
    (os : ℕ → EncodeOracle) (framesOf : ℕ → List String) (N : ℕ)
    (st0 : EncoderState) (fs0 : WorkerFS) (st' : EncoderState) (fs' : WorkerFS)
    (hrun : encodeLoop os framesOf N 0 st0 fs0 = .ok (st', fs'))
    (hinit : st0.partPaths = []) (hnc : st0.cancelled = false) (hN : 2 ≤ N) :
    st'.partPaths = (List.range N).map getPartFilename
    ∧ (mergeChunks mo st' fs').execCmds
        = [buildConcatCommand "concat_list.txt" "output.mov"]
    ∧ (buildConcatCommand "concat_list.txt" "output.mov").get? 6 = some "-c"
    ∧ (buildConcatCommand "concat_list.txt" "output.mov").get? 7 = some "copy"
    ∧ (mergeChunks mo st' fs').writes.head?
        = some ("concat_list.txt",
            String.intercalate "\n"
              ((List.range N).map fun k => concatListLine (getPartFilename k))) := by
  obtain ⟨hpp, hcan⟩ := encodeLoop_ok_partPaths os framesOf N 0 st0 fs0 st' fs' hrun
  rw [hinit, List.nil_append, ← List.range_eq_range'] at hpp
  rw [hnc] at hcan
  obtain ⟨n, rfl⟩ : ∃ n, N = n + 1 + 1 := ⟨N - 2, by omega⟩
  have hsplit : (List.range (n + 1 + 1)).map getPartFilename
      = getPartFilename 0 :: getPartFilename 1 ::
        ((List.range' 2 n).map getPartFilename) := by
    rw [List.range_eq_range', List.range'_succ, List.range'_succ,
      List.map_cons, List.map_cons]
  have hcontent : generateConcatList ((List.range (n + 1 + 1)).map getPartFilename)
      = String.intercalate "\n"
          ((List.range (n + 1 + 1)).map fun k => concatListLine (getPartFilename k)) := by
    rw [generateConcatList, List.map_map]
    rfl
  refine ⟨hpp, ?_, rfl, rfl, ?_⟩
  · rw [mergeChunks, hcan, if_neg Bool.false_ne_true, hpp, hsplit]
    dsimp only
    rcases hex : mo.execOk
    · rw [if_neg Bool.false_ne_true]
    · rw [if_pos rfl, WorkerFS.readFile_writeFile_self]
  · rw [mergeChunks, hcan, if_neg Bool.false_ne_true, hpp, hsplit]
    dsimp only
    rw [← hsplit, hcontent]
    rcases hex : mo.execOk
    · rw [if_neg Bool.false_ne_true]
      rfl
    · rw [if_pos rfl, WorkerFS.readFile_writeFile_self]
      rfl

/-- An all-succeeding encode oracle family and two one-frame chunks for
the C6 witness. -/
def twoChunkFrames : ℕ → List String := fun i => [toString i]

/-- Witness for `mergeChunks_ascending_stream_copy`: two chunks, all
encodes succeed; the loop records `[part_000.mov, part_001.mov]`. -/
theorem mergeChunks_ascending_stream_copy_witness :
    (∃ st' fs', encodeLoop (fun _ => sampleEncodeOracle) twoChunkFrames 2 0
        ⟨[], false⟩ ⟨[], []⟩ = .ok (st', fs')
      ∧ (st'.partPaths = (List.range 2).map getPartFilename
        ∧ (mergeChunks ⟨true, "cat"⟩ st' fs').execCmds
            = [buildConcatCommand "concat_list.txt" "output.mov"]
        ∧ (buildConcatCommand "concat_list.txt" "output.mov").get? 6 = some "-c"
        ∧ (buildConcatCommand "concat_list.txt" "output.mov").get? 7 = some "copy"
        ∧ (mergeChunks ⟨true, "cat"⟩ st' fs').writes.head?
            = some ("concat_list.txt",
                String.intercalate "\n"
                  ((List.range 2).map fun k => concatListLine (getPartFilename k))))) := by
  obtain ⟨⟨st', fs'⟩, hrun⟩ : ∃ r, encodeLoop (fun _ => sampleEncodeOracle)
      twoChunkFrames 2 0 ⟨[], false⟩ ⟨[], []⟩ = .ok r :=
    ⟨_, by with_unfolding_all rfl⟩
  exact ⟨st', fs', hrun,
    mergeChunks_ascending_stream_copy ⟨true, "cat"⟩ (fun _ => sampleEncodeOracle)
      twoChunkFrames 2 ⟨[], false⟩ ⟨[], []⟩ st' fs' hrun rfl rfl (by omega)⟩

